import Mathlib

/-!
Shallow embedding of `src/base64.rs` (rustc-serialize's base64 module).

Bytes are modelled as `Nat` (with theorems assuming `< 256` where the Rust
type `u8` guarantees it), `u32` arithmetic as `Nat` with explicit `% 2 ^ 32`
where the Rust value can wrap, and `usize` arithmetic as `Nat`, except that
the one reachable `usize` underflow (`prealloc_len - 1` with
`prealloc_len = 0`) and the reachable division by zero (`line_length = 0`)
are modelled explicitly: they abort the Rust program, so `to_base64`
returns `Option` and yields `none` there.  Likewise `none` models the
`unwrap` on the output iterator running past the preallocated buffer.
-/

namespace Base64

/-- `enum CharacterSet` from the source. -/
inductive CharacterSet
  | Standard
  | UrlSafe
deriving DecidableEq

/-- `enum Newline` from the source. -/
inductive Newline
  | LF
  | CRLF
deriving DecidableEq

/-- `struct Config` from the source. -/
structure Config where
  char_set : CharacterSet
  newline : Newline
  pad : Bool
  line_length : Option Nat
deriving DecidableEq

/-- `static STANDARD` from the source. -/
def STANDARD : Config := ⟨.Standard, .CRLF, true, none⟩

/-- `static URL_SAFE` from the source. -/
def URL_SAFE : Config := ⟨.UrlSafe, .CRLF, false, none⟩

/-- `static MIME` from the source. -/
def MIME : Config := ⟨.Standard, .CRLF, true, some 76⟩

/-- `static STANDARD_CHARS`: the byte string `A-Z a-z 0-9 + /`. -/
def STANDARD_CHARS : List Nat :=
  [65, 66, 67, 68, 69, 70, 71, 72, 73, 74, 75, 76, 77, 78, 79, 80, 81, 82,
   83, 84, 85, 86, 87, 88, 89, 90,
   97, 98, 99, 100, 101, 102, 103, 104, 105, 106, 107, 108, 109, 110, 111,
   112, 113, 114, 115, 116, 117, 118, 119, 120, 121, 122,
   48, 49, 50, 51, 52, 53, 54, 55, 56, 57, 43, 47]

/-- `static URLSAFE_CHARS`: the byte string `A-Z a-z 0-9 - _`. -/
def URLSAFE_CHARS : List Nat :=
  [65, 66, 67, 68, 69, 70, 71, 72, 73, 74, 75, 76, 77, 78, 79, 80, 81, 82,
   83, 84, 85, 86, 87, 88, 89, 90,
   97, 98, 99, 100, 101, 102, 103, 104, 105, 106, 107, 108, 109, 110, 111,
   112, 113, 114, 115, 116, 117, 118, 119, 120, 121, 122,
   48, 49, 50, 51, 52, 53, 54, 55, 56, 57, 45, 95]

/-- The table chosen by `match config.char_set` in `to_base64`. -/
def charsetTable : CharacterSet → List Nat
  | .Standard => STANDARD_CHARS
  | .UrlSafe => URLSAFE_CHARS

/-- The bytes of the newline string chosen by `match config.newline`. -/
def newlineBytes : Newline → List Nat
  | .LF => [10]
  | .CRLF => [13, 10]

/-- The encoder's line-break test `cur_length >= line_length` (false when
line wrapping is disabled). -/
def lineBreak (ll : Option Nat) (cur : Nat) : Bool :=
  match ll with
  | some line_length => decide (line_length ≤ cur)
  | none => false

/-- The encoder's main `while let` loop over blocks of three input bytes:
given the already-written line length `cur`, returns the written bytes
(newlines interleaved with the four 6-bit-group characters of each block)
together with the final `cur_length`. -/
def encGroups (tbl : List Nat) (ll : Option Nat) (nl : List Nat) :
    List Nat → Nat → List Nat × Nat
  | b0 :: b1 :: b2 :: rest, cur =>
      let brk := lineBreak ll cur
      let cur0 := if brk then 0 else cur
      let n := (b0 <<< 16) ||| (b1 <<< 8) ||| b2
      let res := encGroups tbl ll nl rest (cur0 + 4)
      ((if brk then nl else []) ++
         tbl.getD ((n >>> 18) &&& 63) 0 ::
         tbl.getD ((n >>> 12) &&& 63) 0 ::
         tbl.getD ((n >>> 6) &&& 63) 0 ::
         tbl.getD ((n >>> 0) &&& 63) 0 :: res.1,
       res.2)
  | _, cur => ([], cur)

/-- The encoder's `match mod_len` tail handling: the characters written for
the final one or two leftover input bytes (none when `mod_len = 0`; the
`mod_len ≥ 3` arm is unreachable since `mod_len = len % 3`). -/
def encTail (tbl : List Nat) (self : List Nat) (len mod_len : Nat) : List Nat :=
  match mod_len with
  | 1 =>
      let n := (self.getD (len - 1) 0) <<< 16
      [tbl.getD ((n >>> 18) &&& 63) 0, tbl.getD ((n >>> 12) &&& 63) 0]
  | 2 =>
      let n := ((self.getD (len - 2) 0) <<< 16) ||| ((self.getD (len - 1) 0) <<< 8)
      [tbl.getD ((n >>> 18) &&& 63) 0, tbl.getD ((n >>> 12) &&& 63) 0,
       tbl.getD ((n >>> 6) &&& 63) 0]
  | _ => []

/-- The encoder's final `while let Some(&b'=') = out_bytes.last()` popping
loop, used when `config.pad` is false. -/
def stripTrailingEq (l : List Nat) : List Nat :=
  (l.reverse.dropWhile (fun b => b == 61)).reverse

/-- `<[u8] as ToBase64>::to_base64`.  `none` models an aborted run: the
`usize` underflow of `prealloc_len - 1` on empty input with line wrapping
enabled, the division by a zero `line_length`, or the output iterator's
`unwrap` failing because more bytes are written than were preallocated. -/
def to_base64 (self : List Nat) (config : Config) : Option (List Nat) :=
  let bytes := charsetTable config.char_set
  let len := self.length
  let newline := newlineBytes config.newline
  let prealloc0 := (len + 2) / 3 * 4
  let preallocOpt : Option Nat :=
    match config.line_length with
    | some line_length =>
        if prealloc0 = 0 ∨ line_length = 0 then none
        else some (prealloc0 + (prealloc0 - 1) / line_length * newline.length)
    | none => some prealloc0
  match preallocOpt with
  | none => none
  | some prealloc =>
      let mod_len := len % 3
      let res := encGroups bytes config.line_length newline (self.take (len - mod_len)) 0
      let tailNL :=
        if mod_len ≠ 0 then (if lineBreak config.line_length res.2 then newline else [])
        else []
      let written := res.1 ++ tailNL ++ encTail bytes self len mod_len
      if written.length ≤ prealloc then
        let out := written ++ List.replicate (prealloc - written.length) 61
        some (if config.pad then out else stripTrailingEq out)
      else none

/-- `enum FromBase64Error` from the source. -/
inductive FromBase64Error
  | InvalidBase64Byte : Nat → Nat → FromBase64Error
  | InvalidBase64Length : FromBase64Error
deriving DecidableEq

/-- The action of one arm of the decoder's `match byte`: a 6-bit value is
OR-ed into the accumulator, carriage return and line feed are skipped,
`=` breaks out of the main loop, and anything else is an invalid byte. -/
inductive B64Step
  | data : Nat → B64Step
  | ws : B64Step
  | pad : B64Step
  | bad : B64Step
deriving DecidableEq

/-- The decoder's `match byte` classification, arm by arm. -/
def b64Classify (byte : Nat) : B64Step :=
  if 65 ≤ byte ∧ byte ≤ 90 then .data (byte - 65)
  else if 97 ≤ byte ∧ byte ≤ 122 then .data (byte - 71)
  else if 48 ≤ byte ∧ byte ≤ 57 then .data (byte + 4)
  else if byte = 43 ∨ byte = 45 then .data 62
  else if byte = 47 ∨ byte = 95 then .data 63
  else if byte = 13 ∨ byte = 10 then .ws
  else if byte = 61 then .pad
  else .bad

/-- The decoder's final `match modulus` step, emitting the one or two
trailing output bytes of a partial group (one leftover 6-bit group is an
invalid length). -/
def fb64Finish (buf modulus : Nat) (r : List Nat) : Except FromBase64Error (List Nat) :=
  match modulus with
  | 2 => .ok (r ++ [(buf >>> 10) % 256])
  | 3 => .ok (r ++ [(buf >>> 16) % 256, (buf >>> 8) % 256])
  | 0 => .ok r
  | _ => .error .InvalidBase64Length

/-- The decoder's second `for` loop, scanning what remains after a `=`:
only `=`, carriage return and line feed are permitted. -/
def fb64Rest : List Nat → Nat → Nat → Nat → List Nat → Except FromBase64Error (List Nat)
  | [], _, buf, modulus, r => fb64Finish buf modulus r
  | byte :: rest, idx, buf, modulus, r =>
      if byte = 61 ∨ byte = 13 ∨ byte = 10 then fb64Rest rest (idx + 1) buf modulus r
      else .error (.InvalidBase64Byte byte idx)

/-- The decoder's main `for` loop: `buf` is the 32-bit accumulator (never
reset, so stale high bits persist and wrap at `2 ^ 32`), `modulus` counts
6-bit groups since the last emission, and `r` is the output so far. -/
def fb64Loop : List Nat → Nat → Nat → Nat → List Nat → Except FromBase64Error (List Nat)
  | [], _, buf, modulus, r => fb64Finish buf modulus r
  | byte :: rest, idx, buf, modulus, r =>
      match b64Classify byte with
      | .data val =>
          let buf1 := ((buf ||| val) <<< 6) % 2 ^ 32
          if modulus + 1 = 4 then
            fb64Loop rest (idx + 1) buf1 0
              (r ++ [(buf1 >>> 22) % 256, (buf1 >>> 14) % 256, (buf1 >>> 6) % 256])
          else
            fb64Loop rest (idx + 1) buf1 (modulus + 1) r
      | .ws => fb64Loop rest (idx + 1) buf modulus r
      | .pad => fb64Rest rest (idx + 1) buf modulus r
      | .bad => .error (.InvalidBase64Byte byte idx)

instance : DecidableEq (Except FromBase64Error (List Nat)) := fun x y =>
  match x, y with
  | .ok a, .ok b => decidable_of_iff (a = b) (by simp)
  | .error a, .error b => decidable_of_iff (a = b) (by simp)
  | .ok _, .error _ => isFalse (by simp)
  | .error _, .ok _ => isFalse (by simp)

/-- `<[u8] as FromBase64>::from_base64`. -/
def from_base64 (self : List Nat) : Except FromBase64Error (List Nat) :=
  fb64Loop self 0 0 0 []

/-- Number of bytes of a list the decoder's main loop treats as data
characters. -/
def dataCount (l : List Nat) : Nat :=
  (l.filter (fun b => match b64Classify b with | .data _ => true | _ => false)).length

/-! ### Arithmetic helpers -/

theorem or_eq_add_of_mod_eq_zero {x y : Nat} (k : Nat) (hx : x % 2 ^ k = 0)
    (hy : y < 2 ^ k) : x ||| y = x + y := by
  have hq : x = 2 ^ k * (x / 2 ^ k) := by
    conv_lhs => rw [← Nat.div_add_mod x (2 ^ k)]
    omega
  rw [hq, ← Nat.mul_add_lt_is_or hy]

theorem and_63_eq_mod (x : Nat) : x &&& 63 = x % 64 := by
  have h : (63 : Nat) = 2 ^ 6 - 1 := by norm_num
  have h2 : (2 : Nat) ^ 6 = 64 := by norm_num
  rw [h, Nat.and_pow_two_sub_one_eq_mod, h2]

/-! ### Alphabet table facts -/

theorem classify_table (cs : CharacterSet) :
    ∀ v, v < 64 → b64Classify ((charsetTable cs).getD v 0) = B64Step.data v := by
  cases cs <;> decide

theorem table_ne_61 (cs : CharacterSet) :
    ∀ v, v < 64 → (charsetTable cs).getD v 0 ≠ 61 := by
  cases cs <;> decide

theorem newline_ws (w : Newline) : ∀ x ∈ newlineBytes w, b64Classify x = B64Step.ws := by
  cases w <;> decide

theorem classify_data_lt {b v : Nat} (h : b64Classify b = B64Step.data v) : v < 64 := by
  unfold b64Classify at h
  split_ifs at h <;> simp_all <;> omega

/-! ### Generic decoder-loop lemmas -/

theorem fb64Loop_ws_append {w : List Nat} (hw : ∀ x ∈ w, b64Classify x = B64Step.ws)
    (rest : List Nat) (idx buf m : Nat) (r : List Nat) :
    fb64Loop (w ++ rest) idx buf m r = fb64Loop rest (idx + w.length) buf m r := by
  induction w generalizing idx with
  | nil => simp
  | cons a t ih =>
      have ha : b64Classify a = B64Step.ws := hw a (by simp)
      have ht : ∀ x ∈ t, b64Classify x = B64Step.ws := fun x hx => hw x (by simp [hx])
      have hidx : idx + (a :: t).length = idx + 1 + t.length := by
        simp only [List.length_cons]
        omega
      rw [List.cons_append, fb64Loop, ha, ih ht, hidx]

theorem fb64Rest_trailing {t : List Nat} (ht : ∀ x ∈ t, x = 61 ∨ x = 13 ∨ x = 10)
    (idx buf m : Nat) (r : List Nat) :
    fb64Rest t idx buf m r = fb64Finish buf m r := by
  induction t generalizing idx with
  | nil => rfl
  | cons a t ih =>
      have ha := ht a (by simp)
      have ht' : ∀ x ∈ t, x = 61 ∨ x = 13 ∨ x = 10 := fun x hx => ht x (by simp [hx])
      rw [fb64Rest, if_pos ha, ih ht']

theorem fb64Loop_trailing {t : List Nat} (ht : ∀ x ∈ t, x = 61 ∨ x = 13 ∨ x = 10)
    (idx buf m : Nat) (r : List Nat) :
    fb64Loop t idx buf m r = fb64Finish buf m r := by
  induction t generalizing idx with
  | nil => rfl
  | cons a t ih =>
      have ht' : ∀ x ∈ t, x = 61 ∨ x = 13 ∨ x = 10 := fun x hx => ht x (by simp [hx])
      rcases ht a (by simp) with ha | ha | ha <;> subst ha
      · rw [fb64Loop]
        have : b64Classify 61 = B64Step.pad := by decide
        rw [this]
        exact fb64Rest_trailing ht' _ _ _ _
      · rw [fb64Loop]
        have : b64Classify 13 = B64Step.ws := by decide
        rw [this, ih ht']
      · rw [fb64Loop]
        have : b64Classify 10 = B64Step.ws := by decide
        rw [this, ih ht']

/-! ### Decoding the characters the encoder emits -/

theorem decode_four (cs : CharacterSet) {v0 v1 v2 v3 buf : Nat}
    (h0 : v0 < 64) (h1 : v1 < 64) (h2 : v2 < 64) (h3 : v3 < 64) (hbuf : buf % 64 = 0)
    (idx : Nat) (r : List Nat) :
    ∃ buf2, buf2 % 64 = 0 ∧ ∀ rest : List Nat,
    fb64Loop ((charsetTable cs).getD v0 0 :: (charsetTable cs).getD v1 0 ::
              (charsetTable cs).getD v2 0 :: (charsetTable cs).getD v3 0 :: rest) idx buf 0 r
      = fb64Loop rest (idx + 4) buf2 0
          (r ++ [v0 * 4 + v1 / 16, v1 % 16 * 16 + v2 / 4, v2 % 4 * 64 + v3]) := by
  have hc0 := classify_table cs v0 h0
  have hc1 := classify_table cs v1 h1
  have hc2 := classify_table cs v2 h2
  have hc3 := classify_table cs v3 h3
  generalize hg0 : (charsetTable cs).getD v0 0 = c0 at hc0 ⊢
  generalize hg1 : (charsetTable cs).getD v1 0 = c1 at hc1 ⊢
  generalize hg2 : (charsetTable cs).getD v2 0 = c2 at hc2 ⊢
  generalize hg3 : (charsetTable cs).getD v3 0 = c3 at hc3 ⊢
  have hs : ∀ a : Nat, a <<< 6 = a * 64 := by
    intro a; rw [Nat.shiftLeft_eq]
  have ho0 : buf ||| v0 = buf + v0 := or_eq_add_of_mod_eq_zero 6 (by omega) (by omega)
  have ho1 : (buf + v0) * 64 % 4294967296 ||| v1 = (buf + v0) * 64 % 4294967296 + v1 :=
    or_eq_add_of_mod_eq_zero 6 (by omega) (by omega)
  have ho2 : ((buf + v0) * 64 % 4294967296 + v1) * 64 % 4294967296 ||| v2
      = ((buf + v0) * 64 % 4294967296 + v1) * 64 % 4294967296 + v2 :=
    or_eq_add_of_mod_eq_zero 6 (by omega) (by omega)
  have ho3 : (((buf + v0) * 64 % 4294967296 + v1) * 64 % 4294967296 + v2) * 64 % 4294967296 ||| v3
      = (((buf + v0) * 64 % 4294967296 + v1) * 64 % 4294967296 + v2) * 64 % 4294967296 + v3 :=
    or_eq_add_of_mod_eq_zero 6 (by omega) (by omega)
  have hr : ∀ a k : Nat, a >>> k = a / 2 ^ k := by
    intro a k; rw [Nat.shiftRight_eq_div_pow]
  refine ⟨((((buf + v0) * 64 % 4294967296 + v1) * 64 % 4294967296 + v2) * 64 % 4294967296 + v3) * 64 % 4294967296, by omega, ?_⟩
  intro rest
  rw [fb64Loop, hc0]
  simp only [ho0, hs]
  norm_num
  rw [fb64Loop, hc1]
  simp only [ho1, hs]
  norm_num
  rw [fb64Loop, hc2]
  simp only [ho2, hs]
  norm_num
  rw [fb64Loop, hc3]
  simp only [ho3, hs, hr]
  norm_num
  have hidx : idx + 1 + 1 + 1 + 1 = idx + 4 := by omega
  have he0 : ((((buf + v0) * 64 % 4294967296 + v1) * 64 % 4294967296 + v2) * 64 % 4294967296 + v3) * 64 % 4294967296 / 4194304 % 256 = v0 * 4 + v1 / 16 := by omega
  have he1 : ((((buf + v0) * 64 % 4294967296 + v1) * 64 % 4294967296 + v2) * 64 % 4294967296 + v3) * 64 % 4294967296 / 16384 % 256 = v1 % 16 * 16 + v2 / 4 := by omega
  have he2 : ((((buf + v0) * 64 % 4294967296 + v1) * 64 % 4294967296 + v2) * 64 % 4294967296 + v3) * 64 % 4294967296 / 64 % 256 = v2 % 4 * 64 + v3 := by omega
  rw [hidx, he0, he1, he2]

theorem decode_triple (cs : CharacterSet) {x y z : Nat} (hx : x < 256) (hy : y < 256)
    (hz : z < 256) {buf : Nat} (hbuf : buf % 64 = 0) (idx : Nat) (r : List Nat) :
    ∃ buf2, buf2 % 64 = 0 ∧ ∀ rest : List Nat,
      fb64Loop
        ((charsetTable cs).getD ((((x <<< 16) ||| (y <<< 8) ||| z) >>> 18) &&& 63) 0 ::
         (charsetTable cs).getD ((((x <<< 16) ||| (y <<< 8) ||| z) >>> 12) &&& 63) 0 ::
         (charsetTable cs).getD ((((x <<< 16) ||| (y <<< 8) ||| z) >>> 6) &&& 63) 0 ::
         (charsetTable cs).getD ((((x <<< 16) ||| (y <<< 8) ||| z) >>> 0) &&& 63) 0 :: rest)
        idx buf 0 r
      = fb64Loop rest (idx + 4) buf2 0 (r ++ [x, y, z]) := by
  have hn : (x <<< 16) ||| (y <<< 8) ||| z = x * 65536 + y * 256 + z := by
    have h1 : (y <<< 8) = y * 256 := by rw [Nat.shiftLeft_eq]
    have h2 : (x <<< 16) = x * 65536 := by rw [Nat.shiftLeft_eq]
    rw [h1, h2, Nat.or_assoc]
    have h3 : y * 256 ||| z = y * 256 + z :=
      or_eq_add_of_mod_eq_zero 8 (by omega) (by omega)
    rw [h3]
    have h4 : x * 65536 ||| (y * 256 + z) = x * 65536 + (y * 256 + z) :=
      or_eq_add_of_mod_eq_zero 16 (by omega) (by omega)
    rw [h4]
    omega
  have hv : ∀ k : Nat, ((x * 65536 + y * 256 + z) >>> k) &&& 63
      = (x * 65536 + y * 256 + z) / 2 ^ k % 64 := by
    intro k; rw [Nat.shiftRight_eq_div_pow, and_63_eq_mod]
  obtain ⟨buf2, hb2, heq⟩ := decode_four cs
    (Nat.mod_lt _ (by norm_num) : (x * 65536 + y * 256 + z) / 2 ^ 18 % 64 < 64)
    (Nat.mod_lt _ (by norm_num) : (x * 65536 + y * 256 + z) / 2 ^ 12 % 64 < 64)
    (Nat.mod_lt _ (by norm_num) : (x * 65536 + y * 256 + z) / 2 ^ 6 % 64 < 64)
    (Nat.mod_lt _ (by norm_num) : (x * 65536 + y * 256 + z) / 2 ^ 0 % 64 < 64)
    hbuf idx r
  refine ⟨buf2, hb2, fun rest => ?_⟩
  rw [hn, hv 18, hv 12, hv 6, hv 0, heq rest]
  have he0 : (x * 65536 + y * 256 + z) / 2 ^ 18 % 64 * 4
      + (x * 65536 + y * 256 + z) / 2 ^ 12 % 64 / 16 = x := by omega
  have he1 : (x * 65536 + y * 256 + z) / 2 ^ 12 % 64 % 16 * 16
      + (x * 65536 + y * 256 + z) / 2 ^ 6 % 64 / 4 = y := by omega
  have he2 : (x * 65536 + y * 256 + z) / 2 ^ 6 % 64 % 4 * 64
      + (x * 65536 + y * 256 + z) / 2 ^ 0 % 64 = z := by omega
  rw [he0, he1, he2]

theorem decode_two (cs : CharacterSet) {v0 v1 buf : Nat}
    (h0 : v0 < 64) (h1 : v1 < 64) (hbuf : buf % 64 = 0)
    (idx : Nat) (r t : List Nat) (ht : ∀ b ∈ t, b = 61 ∨ b = 13 ∨ b = 10) :
    fb64Loop ((charsetTable cs).getD v0 0 :: (charsetTable cs).getD v1 0 :: t) idx buf 0 r
      = .ok (r ++ [v0 * 4 + v1 / 16]) := by
  have hc0 := classify_table cs v0 h0
  have hc1 := classify_table cs v1 h1
  generalize hg0 : (charsetTable cs).getD v0 0 = c0 at hc0 ⊢
  generalize hg1 : (charsetTable cs).getD v1 0 = c1 at hc1 ⊢
  have hs : ∀ u : Nat, u <<< 6 = u * 64 := by
    intro u; rw [Nat.shiftLeft_eq]
  have ho0 : buf ||| v0 = buf + v0 := or_eq_add_of_mod_eq_zero 6 (by omega) (by omega)
  rw [fb64Loop, hc0]
  simp only [ho0, hs]
  norm_num
  have ho1 : (buf + v0) * 64 % 4294967296 ||| v1 = (buf + v0) * 64 % 4294967296 + v1 :=
    or_eq_add_of_mod_eq_zero 6 (by omega) (by omega)
  rw [fb64Loop, hc1]
  simp only [ho1, hs]
  norm_num
  rw [fb64Loop_trailing ht]
  have hfin : ∀ b2 : Nat, fb64Finish b2 2 r = .ok (r ++ [(b2 >>> 10) % 256]) := by
    intro b2; rfl
  rw [hfin]
  have hr10 : ∀ u : Nat, u >>> 10 = u / 1024 := by
    intro u; rw [Nat.shiftRight_eq_div_pow]
  rw [hr10]
  have he : ((buf + v0) * 64 % 4294967296 + v1) * 64 % 4294967296 / 1024 % 256
      = v0 * 4 + v1 / 16 := by omega
  rw [he]

theorem decode_three (cs : CharacterSet) {v0 v1 v2 buf : Nat}
    (h0 : v0 < 64) (h1 : v1 < 64) (h2 : v2 < 64) (hbuf : buf % 64 = 0)
    (idx : Nat) (r t : List Nat) (ht : ∀ b ∈ t, b = 61 ∨ b = 13 ∨ b = 10) :
    fb64Loop ((charsetTable cs).getD v0 0 :: (charsetTable cs).getD v1 0 ::
              (charsetTable cs).getD v2 0 :: t) idx buf 0 r
      = .ok (r ++ [v0 * 4 + v1 / 16, v1 % 16 * 16 + v2 / 4]) := by
  have hc0 := classify_table cs v0 h0
  have hc1 := classify_table cs v1 h1
  have hc2 := classify_table cs v2 h2
  generalize hg0 : (charsetTable cs).getD v0 0 = c0 at hc0 ⊢
  generalize hg1 : (charsetTable cs).getD v1 0 = c1 at hc1 ⊢
  generalize hg2 : (charsetTable cs).getD v2 0 = c2 at hc2 ⊢
  have hs : ∀ u : Nat, u <<< 6 = u * 64 := by
    intro u; rw [Nat.shiftLeft_eq]
  have ho0 : buf ||| v0 = buf + v0 := or_eq_add_of_mod_eq_zero 6 (by omega) (by omega)
  rw [fb64Loop, hc0]
  simp only [ho0, hs]
  norm_num
  have ho1 : (buf + v0) * 64 % 4294967296 ||| v1 = (buf + v0) * 64 % 4294967296 + v1 :=
    or_eq_add_of_mod_eq_zero 6 (by omega) (by omega)
  rw [fb64Loop, hc1]
  simp only [ho1, hs]
  norm_num
  have ho2 : ((buf + v0) * 64 % 4294967296 + v1) * 64 % 4294967296 ||| v2
      = ((buf + v0) * 64 % 4294967296 + v1) * 64 % 4294967296 + v2 :=
    or_eq_add_of_mod_eq_zero 6 (by omega) (by omega)
  rw [fb64Loop, hc2]
  simp only [ho2, hs]
  norm_num
  rw [fb64Loop_trailing ht]
  have hfin : ∀ b3 : Nat, fb64Finish b3 3 r
      = .ok (r ++ [(b3 >>> 16) % 256, (b3 >>> 8) % 256]) := by
    intro b3; rfl
  rw [hfin]
  have hr16 : ∀ u : Nat, u >>> 16 = u / 65536 := by
    intro u; rw [Nat.shiftRight_eq_div_pow]
  have hr8 : ∀ u : Nat, u >>> 8 = u / 256 := by
    intro u; rw [Nat.shiftRight_eq_div_pow]
  rw [hr16, hr8]
  have hea : (((buf + v0) * 64 % 4294967296 + v1) * 64 % 4294967296 + v2) * 64
      % 4294967296 / 65536 % 256 = v0 * 4 + v1 / 16 := by omega
  have heb : (((buf + v0) * 64 % 4294967296 + v1) * 64 % 4294967296 + v2) * 64
      % 4294967296 / 256 % 256 = v1 % 16 * 16 + v2 / 4 := by omega
  rw [hea, heb]

theorem decode_tail1 (cs : CharacterSet) {a buf : Nat} (ha : a < 256) (hbuf : buf % 64 = 0)
    (idx : Nat) (r t : List Nat) (ht : ∀ b ∈ t, b = 61 ∨ b = 13 ∨ b = 10) :
    fb64Loop ((charsetTable cs).getD (((a <<< 16) >>> 18) &&& 63) 0 ::
              (charsetTable cs).getD (((a <<< 16) >>> 12) &&& 63) 0 :: t) idx buf 0 r
    = .ok (r ++ [a]) := by
  have hsl : a <<< 16 = a * 65536 := by rw [Nat.shiftLeft_eq]
  rw [hsl]
  have hv : ∀ k : Nat, ((a * 65536) >>> k) &&& 63 = a * 65536 / 2 ^ k % 64 := by
    intro k; rw [Nat.shiftRight_eq_div_pow, and_63_eq_mod]
  rw [hv 18, hv 12]
  rw [decode_two cs (Nat.mod_lt _ (by norm_num)) (Nat.mod_lt _ (by norm_num)) hbuf idx r t ht]
  have he : a * 65536 / 2 ^ 18 % 64 * 4 + a * 65536 / 2 ^ 12 % 64 / 16 = a := by omega
  rw [he]

theorem decode_tail2 (cs : CharacterSet) {a b buf : Nat} (ha : a < 256) (hb : b < 256)
    (hbuf : buf % 64 = 0)
    (idx : Nat) (r t : List Nat) (ht : ∀ x ∈ t, x = 61 ∨ x = 13 ∨ x = 10) :
    fb64Loop ((charsetTable cs).getD ((((a <<< 16) ||| (b <<< 8)) >>> 18) &&& 63) 0 ::
              (charsetTable cs).getD ((((a <<< 16) ||| (b <<< 8)) >>> 12) &&& 63) 0 ::
              (charsetTable cs).getD ((((a <<< 16) ||| (b <<< 8)) >>> 6) &&& 63) 0 :: t)
      idx buf 0 r
    = .ok (r ++ [a, b]) := by
  have hn : (a <<< 16) ||| (b <<< 8) = a * 65536 + b * 256 := by
    have h1 : (b <<< 8) = b * 256 := by rw [Nat.shiftLeft_eq]
    have h2 : (a <<< 16) = a * 65536 := by rw [Nat.shiftLeft_eq]
    rw [h1, h2]
    exact or_eq_add_of_mod_eq_zero 16 (by omega) (by omega)
  rw [hn]
  have hv : ∀ k : Nat, ((a * 65536 + b * 256) >>> k) &&& 63
      = (a * 65536 + b * 256) / 2 ^ k % 64 := by
    intro k; rw [Nat.shiftRight_eq_div_pow, and_63_eq_mod]
  rw [hv 18, hv 12, hv 6]
  rw [decode_three cs (Nat.mod_lt _ (by norm_num)) (Nat.mod_lt _ (by norm_num))
      (Nat.mod_lt _ (by norm_num)) hbuf idx r t ht]
  have hea : (a * 65536 + b * 256) / 2 ^ 18 % 64 * 4
      + (a * 65536 + b * 256) / 2 ^ 12 % 64 / 16 = a := by omega
  have heb : (a * 65536 + b * 256) / 2 ^ 12 % 64 % 16 * 16
      + (a * 65536 + b * 256) / 2 ^ 6 % 64 / 4 = b := by omega
  rw [hea, heb]

theorem decode_encGroups (cs : CharacterSet) (ll : Option Nat) {nl : List Nat}
    (hnl : ∀ x ∈ nl, b64Classify x = B64Step.ws) :
    ∀ l : List Nat, l.length % 3 = 0 → (∀ x ∈ l, x < 256) →
    ∀ cur buf r idx, buf % 64 = 0 →
    ∃ buf2 idx2, buf2 % 64 = 0 ∧
      ∀ rest, fb64Loop ((encGroups (charsetTable cs) ll nl l cur).1 ++ rest) idx buf 0 r
            = fb64Loop rest idx2 buf2 0 (r ++ l)
  | [], _, _, cur, buf, r, idx, hbuf =>
      ⟨buf, idx, hbuf, fun rest => by simp [encGroups]⟩
  | [a], h3, _, cur, buf, r, idx, hbuf => by simp at h3
  | [a, b], h3, _, cur, buf, r, idx, hbuf => by simp at h3
  | a :: b :: c :: tl, h3, hlt, cur, buf, r, idx, hbuf => by
      have h3' : tl.length % 3 = 0 := by
        simp only [List.length_cons] at h3 ⊢
        omega
      have hlt' : ∀ x ∈ tl, x < 256 := fun x hx => hlt x (by simp [hx])
      have ha : a < 256 := hlt a (by simp)
      have hb : b < 256 := hlt b (by simp)
      have hc : c < 256 := hlt c (by simp)
      cases hbrk : lineBreak ll cur with
      | true =>
          obtain ⟨bufT, hbufT, heqT⟩ := decode_triple cs ha hb hc hbuf (idx + nl.length) r
          obtain ⟨buf2, idx2, hb2, heq2⟩ :=
            decode_encGroups cs ll hnl tl h3' hlt' 4 bufT (r ++ [a, b, c])
              (idx + nl.length + 4) hbufT
          refine ⟨buf2, idx2, hb2, fun rest => ?_⟩
          have hunf : (encGroups (charsetTable cs) ll nl (a :: b :: c :: tl) cur).1
              = nl ++
                (charsetTable cs).getD ((((a <<< 16) ||| (b <<< 8) ||| c) >>> 18) &&& 63) 0 ::
                (charsetTable cs).getD ((((a <<< 16) ||| (b <<< 8) ||| c) >>> 12) &&& 63) 0 ::
                (charsetTable cs).getD ((((a <<< 16) ||| (b <<< 8) ||| c) >>> 6) &&& 63) 0 ::
                (charsetTable cs).getD ((((a <<< 16) ||| (b <<< 8) ||| c) >>> 0) &&& 63) 0 ::
                (encGroups (charsetTable cs) ll nl tl 4).1 := by
            simp [encGroups, hbrk]
          rw [hunf, List.append_assoc, fb64Loop_ws_append hnl]
          simp only [List.cons_append]
          rw [heqT ((encGroups (charsetTable cs) ll nl tl 4).1 ++ rest), heq2 rest]
          simp [List.append_assoc]
      | false =>
          obtain ⟨bufT, hbufT, heqT⟩ := decode_triple cs ha hb hc hbuf idx r
          obtain ⟨buf2, idx2, hb2, heq2⟩ :=
            decode_encGroups cs ll hnl tl h3' hlt' (cur + 4) bufT (r ++ [a, b, c])
              (idx + 4) hbufT
          refine ⟨buf2, idx2, hb2, fun rest => ?_⟩
          have hunf : (encGroups (charsetTable cs) ll nl (a :: b :: c :: tl) cur).1
              = (charsetTable cs).getD ((((a <<< 16) ||| (b <<< 8) ||| c) >>> 18) &&& 63) 0 ::
                (charsetTable cs).getD ((((a <<< 16) ||| (b <<< 8) ||| c) >>> 12) &&& 63) 0 ::
                (charsetTable cs).getD ((((a <<< 16) ||| (b <<< 8) ||| c) >>> 6) &&& 63) 0 ::
                (charsetTable cs).getD ((((a <<< 16) ||| (b <<< 8) ||| c) >>> 0) &&& 63) 0 ::
                (encGroups (charsetTable cs) ll nl tl (cur + 4)).1 := by
            simp [encGroups, hbrk]
          rw [hunf]
          simp only [List.cons_append]
          rw [heqT ((encGroups (charsetTable cs) ll nl tl (cur + 4)).1 ++ rest), heq2 rest]
          simp [List.append_assoc]

/-! ### Shape of the encoder output -/

theorem encGroups_mem (tbl : List Nat) (ll : Option Nat) (nl : List Nat) :
    ∀ l cur, ∀ x ∈ (encGroups tbl ll nl l cur).1,
      (∃ v, v < 64 ∧ x = tbl.getD v 0) ∨ x ∈ nl
  | [], cur => by simp [encGroups]
  | [a], cur => by simp [encGroups]
  | [a, b], cur => by simp [encGroups]
  | a :: b :: c :: tl, cur => by
      intro x hx
      have hb63 : ∀ n k : Nat, (n >>> k) &&& 63 < 64 :=
        fun n k => Nat.lt_succ_of_le Nat.and_le_right
      rw [show (encGroups tbl ll nl (a :: b :: c :: tl) cur).1
          = (if lineBreak ll cur then nl else []) ++
            tbl.getD ((((a <<< 16) ||| (b <<< 8) ||| c) >>> 18) &&& 63) 0 ::
            tbl.getD ((((a <<< 16) ||| (b <<< 8) ||| c) >>> 12) &&& 63) 0 ::
            tbl.getD ((((a <<< 16) ||| (b <<< 8) ||| c) >>> 6) &&& 63) 0 ::
            tbl.getD ((((a <<< 16) ||| (b <<< 8) ||| c) >>> 0) &&& 63) 0 ::
            (encGroups tbl ll nl tl ((if lineBreak ll cur then 0 else cur) + 4)).1
          from by cases hbrk : lineBreak ll cur <;> simp [encGroups, hbrk]] at hx
      rcases List.mem_append.mp hx with hx | hx
      · right
        rcases hbrk : lineBreak ll cur <;> rw [hbrk] at hx <;> simp at hx
        exact hx
      · simp only [List.mem_cons] at hx
        rcases hx with h | h | h | h | h
        · exact Or.inl ⟨_, hb63 _ _, h⟩
        · exact Or.inl ⟨_, hb63 _ _, h⟩
        · exact Or.inl ⟨_, hb63 _ _, h⟩
        · exact Or.inl ⟨_, hb63 _ _, h⟩
        · exact encGroups_mem tbl ll nl tl _ x h

theorem encGroups_none_len (tbl : List Nat) (nl : List Nat) :
    ∀ l cur, (encGroups tbl none nl l cur).1.length = 4 * (l.length / 3)
  | [], cur => by simp [encGroups]
  | [a], cur => by simp [encGroups]
  | [a, b], cur => by simp [encGroups]
  | a :: b :: c :: tl, cur => by
      have ih := encGroups_none_len tbl nl tl (cur + 4)
      have hbrk : lineBreak none cur = false := rfl
      simp [encGroups, hbrk, ih, List.length_cons]
      omega

theorem encGroups_some_spec (tbl nl : List Nat) (L : Nat) (hL : 1 ≤ L) :
    ∀ l m, l.length % 3 = 0 → m ≤ (L + 3) / 4 →
      (encGroups tbl (some L) nl l (4 * m)).1.length
        = 4 * (l.length / 3)
          + nl.length * ((l.length / 3 + m - 1) / ((L + 3) / 4)) ∧
      (encGroups tbl (some L) nl l (4 * m)).2
        = 4 * (m + l.length / 3
            - (L + 3) / 4 * ((l.length / 3 + m - 1) / ((L + 3) / 4))) ∧
      m + l.length / 3 - (L + 3) / 4 * ((l.length / 3 + m - 1) / ((L + 3) / 4))
        ≤ (L + 3) / 4
  | [], m, h3, hm => by
      have hz : (m - 1) / ((L + 3) / 4) = 0 :=
        Nat.div_eq_of_lt (by omega)
      refine ⟨?_, ?_, ?_⟩
      · simp [encGroups, hz]
      · simp [encGroups, hz]
      · simp [hz]
        omega
  | [a], m, h3, hm => by simp at h3
  | [a, b], m, h3, hm => by simp at h3
  | x :: y :: z :: tl, m, h3, hm => by
      have h3' : tl.length % 3 = 0 := by
        simp only [List.length_cons] at h3 ⊢
        omega
      have hT3 : (x :: y :: z :: tl).length / 3 = tl.length / 3 + 1 := by
        simp only [List.length_cons]
        omega
      by_cases hLm : L ≤ 4 * m
      · have hmc : m = (L + 3) / 4 := by omega
        have hbrk : lineBreak (some L) (4 * m) = true := by
          simp [lineBreak]
          omega
        obtain ⟨ih1, ih2, ih3⟩ := encGroups_some_spec tbl nl L hL tl 1 h3' (by omega)
        have e2 : tl.length / 3 + 1 - 1 = tl.length / 3 := by omega
        rw [e2] at ih1 ih2 ih3
        norm_num at ih1 ih2 ih3
        have hlen1 : (encGroups tbl (some L) nl (x :: y :: z :: tl) (4 * m)).1.length
            = nl.length + (4 + (encGroups tbl (some L) nl tl 4).1.length) := by
          simp [encGroups, hbrk]
          omega
        have hsnd1 : (encGroups tbl (some L) nl (x :: y :: z :: tl) (4 * m)).2
            = (encGroups tbl (some L) nl tl 4).2 := by
          simp [encGroups, hbrk]
        have harg : (x :: y :: z :: tl).length / 3 + m - 1
            = tl.length / 3 + (L + 3) / 4 := by
          rw [hT3]
          omega
        have hq : (tl.length / 3 + (L + 3) / 4) / ((L + 3) / 4)
            = tl.length / 3 / ((L + 3) / 4) + 1 :=
          Nat.add_div_right _ (by omega)
        refine ⟨?_, ?_, ?_⟩
        · rw [hlen1, ih1, harg, hq, hT3]
          ring
        · rw [hsnd1, ih2, harg, hq, hT3]
          have hmul : (L + 3) / 4 * (tl.length / 3 / ((L + 3) / 4) + 1)
              = (L + 3) / 4 * (tl.length / 3 / ((L + 3) / 4)) + (L + 3) / 4 := by ring
          rw [hmul]
          generalize (L + 3) / 4 * (tl.length / 3 / ((L + 3) / 4)) = B at *
          omega
        · rw [harg, hq, hT3]
          have hmul : (L + 3) / 4 * (tl.length / 3 / ((L + 3) / 4) + 1)
              = (L + 3) / 4 * (tl.length / 3 / ((L + 3) / 4)) + (L + 3) / 4 := by ring
          rw [hmul]
          generalize (L + 3) / 4 * (tl.length / 3 / ((L + 3) / 4)) = B at *
          omega
      · have hm1 : m + 1 ≤ (L + 3) / 4 := by omega
        have hbrk : lineBreak (some L) (4 * m) = false := by
          simp [lineBreak]
          omega
        obtain ⟨ih1, ih2, ih3⟩ := encGroups_some_spec tbl nl L hL tl (m + 1) h3' hm1
        have hlen1 : (encGroups tbl (some L) nl (x :: y :: z :: tl) (4 * m)).1.length
            = 4 + (encGroups tbl (some L) nl tl (4 * m + 4)).1.length := by
          simp [encGroups, hbrk]
          omega
        have hsnd1 : (encGroups tbl (some L) nl (x :: y :: z :: tl) (4 * m)).2
            = (encGroups tbl (some L) nl tl (4 * m + 4)).2 := by
          simp [encGroups, hbrk]
        have hc4 : 4 * m + 4 = 4 * (m + 1) := by ring
        rw [hc4] at hlen1 hsnd1
        have harg : (x :: y :: z :: tl).length / 3 + m - 1
            = tl.length / 3 + (m + 1) - 1 := by
          rw [hT3]
          omega
        refine ⟨?_, ?_, ?_⟩
        · rw [hlen1, ih1, harg, hT3]
          ring
        · rw [hsnd1, ih2, harg, hT3]
          generalize (L + 3) / 4 * ((tl.length / 3 + (m + 1) - 1) / ((L + 3) / 4)) = B at *
          omega
        · rw [harg, hT3]
          generalize (L + 3) / 4 * ((tl.length / 3 + (m + 1) - 1) / ((L + 3) / 4)) = B at *
          omega

/-! ### List helpers -/

theorem take_last1 {l : List Nat} {n : Nat} (h : l.length = n + 1) :
    l.take n ++ [l.getD n 0] = l := by
  have hn : n < l.length := by omega
  have hd : l.drop n = l.getD n 0 :: l.drop (n + 1) := by
    rw [List.drop_eq_getElem_cons hn, List.getD_eq_getElem l 0 hn]
  have hd2 : l.drop (n + 1) = [] := List.drop_eq_nil_of_le (by omega)
  conv_rhs => rw [← List.take_append_drop n l]
  rw [hd, hd2]

theorem take_last2 {l : List Nat} {n : Nat} (h : l.length = n + 2) :
    l.take n ++ [l.getD n 0, l.getD (n + 1) 0] = l := by
  have hn : n < l.length := by omega
  have hn1 : n + 1 < l.length := by omega
  have hd : l.drop n = l.getD n 0 :: l.drop (n + 1) := by
    rw [List.drop_eq_getElem_cons hn, List.getD_eq_getElem l 0 hn]
  have hd1 : l.drop (n + 1) = l.getD (n + 1) 0 :: l.drop (n + 2) := by
    rw [List.drop_eq_getElem_cons hn1, List.getD_eq_getElem l 0 hn1]
  have hd2 : l.drop (n + 2) = [] := List.drop_eq_nil_of_le (by omega)
  conv_rhs => rw [← List.take_append_drop n l]
  rw [hd, hd1, hd2]

theorem dropWhile_eq_self_of_not {l : List Nat} (h : ∀ x ∈ l, x ≠ 61) :
    l.dropWhile (fun b => b == 61) = l := by
  cases l with
  | nil => rfl
  | cons a t =>
      have ha : (a == 61) = false := by
        have := h a (by simp)
        simp [this]
      rw [List.dropWhile_cons, ha]
      simp

theorem stripTrailingEq_append_replicate {w : List Nat} (hw : ∀ x ∈ w, x ≠ 61) (k : Nat) :
    stripTrailingEq (w ++ List.replicate k 61) = w := by
  unfold stripTrailingEq
  rw [List.reverse_append, List.reverse_replicate]
  have hrep : ∀ j : Nat, List.dropWhile (fun b => b == 61)
      (List.replicate j 61 ++ w.reverse) = List.dropWhile (fun b => b == 61) w.reverse := by
    intro j
    induction j with
    | zero => simp
    | succ j ih => simp [List.replicate_succ, List.dropWhile_cons, ih]
  rw [hrep]
  rw [dropWhile_eq_self_of_not (by intro x hx; exact hw x (List.mem_reverse.mp hx))]
  exact List.reverse_reverse w

/-! ### Structure of a successful to_base64 run -/

theorem to_base64_spec_none (self : List Nat) {cfg : Config} (hll : cfg.line_length = none) :
    ∃ w k, to_base64 self cfg
        = some (if cfg.pad then w ++ List.replicate k 61
                else stripTrailingEq (w ++ List.replicate k 61))
      ∧ w = (encGroups (charsetTable cfg.char_set) none (newlineBytes cfg.newline)
              (self.take (self.length - self.length % 3)) 0).1
          ++ encTail (charsetTable cfg.char_set) self self.length (self.length % 3)
      ∧ k = (self.length + 2) / 3 * 4 - w.length := by
  have htake : (self.take (self.length - self.length % 3)).length
      = self.length - self.length % 3 := by
    rw [List.length_take]
    omega
  have hglen := encGroups_none_len (charsetTable cfg.char_set) (newlineBytes cfg.newline)
    (self.take (self.length - self.length % 3)) 0
  rw [htake] at hglen
  have htlen : (encTail (charsetTable cfg.char_set) self self.length (self.length % 3)).length
      ≤ 3 := by
    have h3 : self.length % 3 = 0 ∨ self.length % 3 = 1 ∨ self.length % 3 = 2 := by omega
    rcases h3 with h | h | h <;> rw [h] <;> simp [encTail]
  have hlb : ∀ x, lineBreak none x = false := fun x => rfl
  have key : to_base64 self cfg
      = some (if cfg.pad then
          ((encGroups (charsetTable cfg.char_set) none (newlineBytes cfg.newline)
              (self.take (self.length - self.length % 3)) 0).1
            ++ encTail (charsetTable cfg.char_set) self self.length (self.length % 3))
          ++ List.replicate ((self.length + 2) / 3 * 4
              - ((encGroups (charsetTable cfg.char_set) none (newlineBytes cfg.newline)
                  (self.take (self.length - self.length % 3)) 0).1
                ++ encTail (charsetTable cfg.char_set) self self.length
                    (self.length % 3)).length) 61
        else stripTrailingEq
          (((encGroups (charsetTable cfg.char_set) none (newlineBytes cfg.newline)
              (self.take (self.length - self.length % 3)) 0).1
            ++ encTail (charsetTable cfg.char_set) self self.length (self.length % 3))
          ++ List.replicate ((self.length + 2) / 3 * 4
              - ((encGroups (charsetTable cfg.char_set) none (newlineBytes cfg.newline)
                  (self.take (self.length - self.length % 3)) 0).1
                ++ encTail (charsetTable cfg.char_set) self self.length
                    (self.length % 3)).length) 61)) := by
    unfold to_base64
    rw [hll]
    simp only [hlb, Bool.false_eq_true, if_false, ite_self, List.append_nil]
    split
    · rfl
    · next h =>
        exfalso
        apply h
        simp only [List.length_append]
        rw [hglen]
        rcases (by omega : self.length % 3 = 0 ∨ self.length % 3 = 1 ∨ self.length % 3 = 2)
          with h3 | h3 | h3 <;> rw [h3] <;> simp [encTail] <;> omega
  exact ⟨_, _, key, rfl, rfl⟩

theorem lineBreak_some (L x : Nat) : lineBreak (some L) x = decide (L ≤ x) := rfl

theorem wrap_nl_bound (L T : Nat) (hL : 1 ≤ L) :
    (T - 1) / ((L + 3) / 4) ≤ (4 * T - 1) / L := by
  rcases Nat.eq_zero_or_pos T with h | h
  · subst h
    simp
  · apply (Nat.le_div_iff_mul_le (by omega)).mpr
    have h1 : (T - 1) / ((L + 3) / 4) * ((L + 3) / 4) ≤ T - 1 := Nat.div_mul_le_self _ _
    have h2 : (T - 1) / ((L + 3) / 4) * L ≤ (T - 1) / ((L + 3) / 4) * (4 * ((L + 3) / 4)) :=
      Nat.mul_le_mul_left _ (by omega)
    have h3 : (T - 1) / ((L + 3) / 4) * (4 * ((L + 3) / 4))
        = 4 * ((T - 1) / ((L + 3) / 4) * ((L + 3) / 4)) := by ring
    rw [h3] at h2
    generalize hql : (T - 1) / ((L + 3) / 4) * L = ql at *
    generalize hqc : (T - 1) / ((L + 3) / 4) * ((L + 3) / 4) = qc at *
    omega

theorem wrap_nl_bound_fire (L T A : Nat) (hL : 1 ≤ L)
    (hA : (L + 3) / 4 * A + (L + 3) / 4 = T) :
    A + 1 ≤ (4 * T + 3) / L := by
  apply (Nat.le_div_iff_mul_le (by omega)).mpr
  have h2 : (A + 1) * L ≤ (A + 1) * (4 * ((L + 3) / 4)) :=
    Nat.mul_le_mul_left _ (by omega)
  have h3 : (A + 1) * (4 * ((L + 3) / 4))
      = 4 * ((L + 3) / 4 * A) + 4 * ((L + 3) / 4) := by ring
  rw [h3] at h2
  generalize hql : (A + 1) * L = ql at *
  generalize hqc : (L + 3) / 4 * A = qc at *
  omega

set_option maxHeartbeats 1000000 in
theorem to_base64_spec_some (self : List Nat) {cfg : Config} {L : Nat}
    (hll : cfg.line_length = some L) (hL : 1 ≤ L) (hne : self ≠ []) :
    ∃ w k, to_base64 self cfg
        = some (if cfg.pad then w ++ List.replicate k 61
                else stripTrailingEq (w ++ List.replicate k 61))
      ∧ w = (encGroups (charsetTable cfg.char_set) (some L) (newlineBytes cfg.newline)
              (self.take (self.length - self.length % 3)) 0).1
          ++ (if self.length % 3 ≠ 0 then
                (if lineBreak (some L)
                    ((encGroups (charsetTable cfg.char_set) (some L) (newlineBytes cfg.newline)
                       (self.take (self.length - self.length % 3)) 0).2)
                 then newlineBytes cfg.newline else [])
              else [])
          ++ encTail (charsetTable cfg.char_set) self self.length (self.length % 3) := by
  have hlen1 : 1 ≤ self.length := List.length_pos.mpr hne
  have htake : (self.take (self.length - self.length % 3)).length
      = self.length - self.length % 3 := by
    rw [List.length_take]
    omega
  have h3' : (self.take (self.length - self.length % 3)).length % 3 = 0 := by
    rw [htake]
    omega
  obtain ⟨hg1, hg2, hg3⟩ := encGroups_some_spec (charsetTable cfg.char_set)
    (newlineBytes cfg.newline) L hL (self.take (self.length - self.length % 3)) 0
    h3' (Nat.zero_le _)
  norm_num at hg1 hg2 hg3
  have hbound : ((encGroups (charsetTable cfg.char_set) (some L) (newlineBytes cfg.newline)
          (self.take (self.length - self.length % 3)) 0).1
        ++ (if self.length % 3 ≠ 0 then
              (if lineBreak (some L)
                  ((encGroups (charsetTable cfg.char_set) (some L) (newlineBytes cfg.newline)
                     (self.take (self.length - self.length % 3)) 0).2)
               then newlineBytes cfg.newline else [])
            else [])
        ++ encTail (charsetTable cfg.char_set) self self.length (self.length % 3)).length
      ≤ (self.length + 2) / 3 * 4
        + ((self.length + 2) / 3 * 4 - 1) / L * (newlineBytes cfg.newline).length := by
    simp only [List.length_append]
    rw [hg1, hg2]
    by_cases hmd : self.length % 3 = 0
    · rw [hmd]
      simp only [ne_eq, not_true_eq_false, if_false, List.length_nil]
      simp only [Nat.sub_zero]
      have htl0 : (encTail (charsetTable cfg.char_set) self self.length 0).length = 0 := by
        simp [encTail]
      rw [htl0]
      have hP : (self.length + 2) / 3 * 4 = 4 * (self.length / 3) := by omega
      rw [hP]
      have hb := wrap_nl_bound L (self.length / 3) hL
      have hmono : (newlineBytes cfg.newline).length * ((self.length / 3 - 1) / ((L + 3) / 4))
          ≤ (newlineBytes cfg.newline).length * ((4 * (self.length / 3) - 1) / L) :=
        Nat.mul_le_mul_left _ hb
      linarith [hmono]
    · simp only [ne_eq, hmd, not_false_eq_true, if_true]
      have htl3 : (encTail (charsetTable cfg.char_set) self self.length
          (self.length % 3)).length ≤ 3 := by
        rcases (by omega : self.length % 3 = 1 ∨ self.length % 3 = 2) with h | h <;>
          rw [h] <;> simp [encTail]
      have hP : (self.length + 2) / 3 * 4 = 4 * ((self.length - self.length % 3) / 3) + 4 := by
        omega
      rw [hP, lineBreak_some]
      by_cases hf : L ≤ 4 * ((self.length - self.length % 3) / 3
          - (L + 3) / 4 * (((self.length - self.length % 3) / 3 - 1) / ((L + 3) / 4)))
      · simp only [hf, decide_True, if_true]
        have hA : (L + 3) / 4 * (((self.length - self.length % 3) / 3 - 1) / ((L + 3) / 4))
              + (L + 3) / 4 = (self.length - self.length % 3) / 3 := by
          generalize (L + 3) / 4 * (((self.length - self.length % 3) / 3 - 1) / ((L + 3) / 4))
              = G at hf hg3 ⊢
          omega
        have hfire := wrap_nl_bound_fire L ((self.length - self.length % 3) / 3)
          (((self.length - self.length % 3) / 3 - 1) / ((L + 3) / 4)) hL hA
        have hm2 : (newlineBytes cfg.newline).length
              * ((((self.length - self.length % 3) / 3 - 1) / ((L + 3) / 4)) + 1)
            ≤ (newlineBytes cfg.newline).length
              * ((4 * ((self.length - self.length % 3) / 3) + 3) / L) :=
          Nat.mul_le_mul_left _ hfire
        have hd : (newlineBytes cfg.newline).length
              * ((((self.length - self.length % 3) / 3 - 1) / ((L + 3) / 4)) + 1)
            = (newlineBytes cfg.newline).length
                * (((self.length - self.length % 3) / 3 - 1) / ((L + 3) / 4))
              + (newlineBytes cfg.newline).length := by ring
        rw [hd] at hm2
        have he43 : 4 * ((self.length - self.length % 3) / 3) + 4 - 1
            = 4 * ((self.length - self.length % 3) / 3) + 3 := by omega
        rw [he43]
        linarith [hm2, htl3]
      · simp only [hf, decide_False, Bool.false_eq_true, if_false, List.length_nil]
        have hb := wrap_nl_bound L ((self.length - self.length % 3) / 3) hL
        have hmono2 : (4 * ((self.length - self.length % 3) / 3) - 1) / L
            ≤ (4 * ((self.length - self.length % 3) / 3) + 3) / L :=
          Nat.div_le_div_right (by omega)
        have hm2 : (newlineBytes cfg.newline).length
              * (((self.length - self.length % 3) / 3 - 1) / ((L + 3) / 4))
            ≤ (newlineBytes cfg.newline).length
              * ((4 * ((self.length - self.length % 3) / 3) + 3) / L) :=
          Nat.mul_le_mul_left _ (le_trans hb hmono2)
        have he43 : 4 * ((self.length - self.length % 3) / 3) + 4 - 1
            = 4 * ((self.length - self.length % 3) / 3) + 3 := by omega
        rw [he43]
        linarith [hm2, htl3]
  have key : to_base64 self cfg
      = some (if cfg.pad then
          ((encGroups (charsetTable cfg.char_set) (some L) (newlineBytes cfg.newline)
              (self.take (self.length - self.length % 3)) 0).1
            ++ (if self.length % 3 ≠ 0 then
                  (if lineBreak (some L)
                      ((encGroups (charsetTable cfg.char_set) (some L) (newlineBytes cfg.newline)
                         (self.take (self.length - self.length % 3)) 0).2)
                   then newlineBytes cfg.newline else [])
                else [])
            ++ encTail (charsetTable cfg.char_set) self self.length (self.length % 3))
          ++ List.replicate ((self.length + 2) / 3 * 4
              + ((self.length + 2) / 3 * 4 - 1) / L * (newlineBytes cfg.newline).length
              - ((encGroups (charsetTable cfg.char_set) (some L) (newlineBytes cfg.newline)
                    (self.take (self.length - self.length % 3)) 0).1
                ++ (if self.length % 3 ≠ 0 then
                      (if lineBreak (some L)
                          ((encGroups (charsetTable cfg.char_set) (some L)
                             (newlineBytes cfg.newline)
                             (self.take (self.length - self.length % 3)) 0).2)
                       then newlineBytes cfg.newline else [])
                    else [])
                ++ encTail (charsetTable cfg.char_set) self self.length
                    (self.length % 3)).length) 61
        else stripTrailingEq
          (((encGroups (charsetTable cfg.char_set) (some L) (newlineBytes cfg.newline)
              (self.take (self.length - self.length % 3)) 0).1
            ++ (if self.length % 3 ≠ 0 then
                  (if lineBreak (some L)
                      ((encGroups (charsetTable cfg.char_set) (some L) (newlineBytes cfg.newline)
                         (self.take (self.length - self.length % 3)) 0).2)
                   then newlineBytes cfg.newline else [])
                else [])
            ++ encTail (charsetTable cfg.char_set) self self.length (self.length % 3))
          ++ List.replicate ((self.length + 2) / 3 * 4
              + ((self.length + 2) / 3 * 4 - 1) / L * (newlineBytes cfg.newline).length
              - ((encGroups (charsetTable cfg.char_set) (some L) (newlineBytes cfg.newline)
                    (self.take (self.length - self.length % 3)) 0).1
                ++ (if self.length % 3 ≠ 0 then
                      (if lineBreak (some L)
                          ((encGroups (charsetTable cfg.char_set) (some L)
                             (newlineBytes cfg.newline)
                             (self.take (self.length - self.length % 3)) 0).2)
                       then newlineBytes cfg.newline else [])
                    else [])
                ++ encTail (charsetTable cfg.char_set) self self.length
                    (self.length % 3)).length) 61)) := by
    unfold to_base64
    rw [hll]
    simp only []
    rw [if_neg (by omega : ¬((self.length + 2) / 3 * 4 = 0 ∨ L = 0))]
    simp only []
    rw [if_pos hbound]
  exact ⟨_, _, key, rfl⟩

/-! ### Decoding everything the encoder writes -/

theorem encTail_mem (tbl self : List Nat) (len : Nat) :
    ∀ md, ∀ x ∈ encTail tbl self len md, ∃ v, v < 64 ∧ x = tbl.getD v 0
  | 0 => by simp [encTail]
  | 1 => by
      intro x hx
      simp only [encTail, List.mem_cons, List.not_mem_nil, or_false] at hx
      rcases hx with h | h <;>
        exact ⟨_, Nat.lt_succ_of_le Nat.and_le_right, h⟩
  | 2 => by
      intro x hx
      simp only [encTail, List.mem_cons, List.not_mem_nil, or_false] at hx
      rcases hx with h | h | h <;>
        exact ⟨_, Nat.lt_succ_of_le Nat.and_le_right, h⟩
  | (n + 3) => by simp [encTail]

theorem newlineBytes_ws (w : Newline) : ∀ x ∈ newlineBytes w, b64Classify x = B64Step.ws := by
  cases w <;> decide

theorem newlineBytes_ne_61 (w : Newline) : ∀ x ∈ newlineBytes w, x ≠ 61 := by
  cases w <;> decide

set_option maxHeartbeats 1000000 in
theorem decode_written (cs : CharacterSet) (ll : Option Nat) (nl : List Nat)
    (hnl : ∀ x ∈ nl, b64Classify x = B64Step.ws)
    (self : List Nat) (hv : ∀ b ∈ self, b < 256) (k : Nat) (tailNL : List Nat)
    (htn : ∀ x ∈ tailNL, b64Classify x = B64Step.ws) :
    from_base64 ((encGroups (charsetTable cs) ll nl
        (self.take (self.length - self.length % 3)) 0).1
      ++ (tailNL ++ (encTail (charsetTable cs) self self.length (self.length % 3)
      ++ List.replicate k 61))) = .ok self := by
  have htake : (self.take (self.length - self.length % 3)).length
      = self.length - self.length % 3 := by
    rw [List.length_take]
    omega
  have h3' : (self.take (self.length - self.length % 3)).length % 3 = 0 := by
    rw [htake]
    omega
  have hlt : ∀ x ∈ self.take (self.length - self.length % 3), x < 256 :=
    fun x hx => hv x (List.take_subset _ _ hx)
  have hrep : ∀ x ∈ List.replicate k 61, x = 61 ∨ x = 13 ∨ x = 10 :=
    fun x hx => Or.inl (List.eq_of_mem_replicate hx)
  obtain ⟨buf2, idx2, hb2, heq⟩ := decode_encGroups cs ll hnl
    (self.take (self.length - self.length % 3)) h3' hlt 0 0 [] 0 rfl
  unfold from_base64
  rw [heq, fb64Loop_ws_append htn]
  simp only [List.nil_append]
  rcases (by omega : self.length % 3 = 0 ∨ self.length % 3 = 1 ∨ self.length % 3 = 2)
    with h3 | h3 | h3
  · rw [h3]
    have htail : encTail (charsetTable cs) self self.length 0 = [] := by simp [encTail]
    rw [htail]
    simp only [List.nil_append, Nat.sub_zero] at *
    rw [List.take_length] at *
    rw [fb64Loop_trailing hrep]
    rfl
  · rw [h3]
    have hlen1 : 1 ≤ self.length := by omega
    have hmem : self.getD (self.length - 1) 0 ∈ self := by
      rw [List.getD_eq_getElem self 0 (by omega)]
      exact List.getElem_mem _
    have ha : self.getD (self.length - 1) 0 < 256 := hv _ hmem
    have htail : encTail (charsetTable cs) self self.length 1
        = [(charsetTable cs).getD ((((self.getD (self.length - 1) 0) <<< 16) >>> 18) &&& 63) 0,
           (charsetTable cs).getD ((((self.getD (self.length - 1) 0) <<< 16) >>> 12) &&& 63) 0] := by
      simp [encTail]
    rw [htail]
    simp only [List.cons_append, List.nil_append]
    rw [decode_tail1 cs ha hb2 _ _ (List.replicate k 61) hrep]
    rw [take_last1 (by omega : self.length = (self.length - 1) + 1)]
  · rw [h3]
    have hlen2 : 2 ≤ self.length := by omega
    have hmema : self.getD (self.length - 2) 0 ∈ self := by
      rw [List.getD_eq_getElem self 0 (by omega)]
      exact List.getElem_mem _
    have hmemb : self.getD (self.length - 1) 0 ∈ self := by
      rw [List.getD_eq_getElem self 0 (by omega)]
      exact List.getElem_mem _
    have ha : self.getD (self.length - 2) 0 < 256 := hv _ hmema
    have hb : self.getD (self.length - 1) 0 < 256 := hv _ hmemb
    have htail : encTail (charsetTable cs) self self.length 2
        = [(charsetTable cs).getD (((((self.getD (self.length - 2) 0) <<< 16)
              ||| ((self.getD (self.length - 1) 0) <<< 8)) >>> 18) &&& 63) 0,
           (charsetTable cs).getD (((((self.getD (self.length - 2) 0) <<< 16)
              ||| ((self.getD (self.length - 1) 0) <<< 8)) >>> 12) &&& 63) 0,
           (charsetTable cs).getD (((((self.getD (self.length - 2) 0) <<< 16)
              ||| ((self.getD (self.length - 1) 0) <<< 8)) >>> 6) &&& 63) 0] := by
      simp [encTail]
    rw [htail]
    simp only [List.cons_append, List.nil_append]
    rw [decode_tail2 cs ha hb hb2 _ _ (List.replicate k 61) hrep]
    have he2 : self.length - 2 + 1 = self.length - 1 := by omega
    have := take_last2 (l := self) (n := self.length - 2) (by omega)
    rw [he2] at this
    rw [this]

theorem to_base64_total (self : List Nat) (cfg : Config)
    (h : cfg.line_length = none ∨ ∃ L, cfg.line_length = some L ∧ 1 ≤ L ∧ self ≠ []) :
    ∃ s, to_base64 self cfg = some s := by
  rcases h with h | ⟨L, hll, hL, hne⟩
  · obtain ⟨w, k, heq, -, -⟩ := to_base64_spec_none self h
    exact ⟨_, heq⟩
  · obtain ⟨w, k, heq, -⟩ := to_base64_spec_some self hll hL hne
    exact ⟨_, heq⟩

theorem encode_decode (self : List Nat) (cfg : Config)
    (hv : ∀ b ∈ self, b < 256)
    (h : cfg.line_length = none ∨ ∃ L, cfg.line_length = some L ∧ 1 ≤ L ∧ self ≠ []) :
    ∃ s, to_base64 self cfg = some s ∧ from_base64 s = .ok self := by
  rcases h with hll | ⟨L, hll, hL, hne⟩
  · obtain ⟨w, k, heq, hw, hk⟩ := to_base64_spec_none self hll
    refine ⟨_, heq, ?_⟩
    have hw61 : ∀ x ∈ w, x ≠ 61 := by
      intro x hx
      rw [hw] at hx
      rcases List.mem_append.mp hx with hx | hx
      · rcases encGroups_mem _ _ _ _ _ x hx with ⟨v, hv64, hxe⟩ | hx2
        · rw [hxe]
          exact table_ne_61 cfg.char_set v hv64
        · exact newlineBytes_ne_61 cfg.newline x hx2
      · obtain ⟨v, hv64, hxe⟩ := encTail_mem _ self _ _ x hx
        rw [hxe]
        exact table_ne_61 cfg.char_set v hv64
    have hdec : ∀ k', from_base64 (w ++ List.replicate k' 61) = .ok self := by
      intro k'
      rw [hw, List.append_assoc]
      have := decode_written cfg.char_set none (newlineBytes cfg.newline)
        (newlineBytes_ws _) self hv k' [] (by simp)
      simp only [List.nil_append] at this
      exact this
    cases hpad : cfg.pad with
    | true =>
        simp only [hpad, if_true]
        exact hdec k
    | false =>
        simp only [hpad, Bool.false_eq_true, if_false]
        rw [stripTrailingEq_append_replicate hw61]
        have := hdec 0
        simpa using this
  · obtain ⟨w, k, heq, hw⟩ := to_base64_spec_some self hll hL hne
    refine ⟨_, heq, ?_⟩
    have htn : ∀ x ∈ (if self.length % 3 ≠ 0 then
        (if lineBreak (some L)
            ((encGroups (charsetTable cfg.char_set) (some L) (newlineBytes cfg.newline)
               (self.take (self.length - self.length % 3)) 0).2)
         then newlineBytes cfg.newline else [])
        else []), b64Classify x = B64Step.ws := by
      intro x hx
      split at hx
      · split at hx
        · exact newlineBytes_ws cfg.newline x hx
        · simp at hx
      · simp at hx
    have hw61 : ∀ x ∈ w, x ≠ 61 := by
      intro x hx
      rw [hw] at hx
      rcases List.mem_append.mp hx with hx | hx
      · rcases List.mem_append.mp hx with hx | hx
        · rcases encGroups_mem _ _ _ _ _ x hx with ⟨v, hv64, hxe⟩ | hx2
          · rw [hxe]
            exact table_ne_61 cfg.char_set v hv64
          · exact newlineBytes_ne_61 cfg.newline x hx2
        · split at hx
          · split at hx
            · exact newlineBytes_ne_61 cfg.newline x hx
            · simp at hx
          · simp at hx
      · obtain ⟨v, hv64, hxe⟩ := encTail_mem _ self _ _ x hx
        rw [hxe]
        exact table_ne_61 cfg.char_set v hv64
    have hdec : ∀ k', from_base64 (w ++ List.replicate k' 61) = .ok self := by
      intro k'
      rw [hw]
      simp only [List.append_assoc]
      exact decode_written cfg.char_set (some L) (newlineBytes cfg.newline)
        (newlineBytes_ws _) self hv k' _ htn
    cases hpad : cfg.pad with
    | true =>
        simp only [hpad, if_true]
        exact hdec k
    | false =>
        simp only [hpad, Bool.false_eq_true, if_false]
        rw [stripTrailingEq_append_replicate hw61]
        have := hdec 0
        simpa using this

/-! ### Tracking the decoder across arbitrary well-formed input -/

theorem fb64Loop_advance : ∀ (d : List Nat),
    (∀ b ∈ d, b64Classify b ≠ B64Step.bad ∧ b64Classify b ≠ B64Step.pad) →
    ∀ idx buf m r, ∃ buf2 m2 r2,
      ∀ rest, fb64Loop (d ++ rest) idx buf m r = fb64Loop rest (idx + d.length) buf2 m2 r2
  | [], _, idx, buf, m, r => ⟨buf, m, r, fun rest => by simp⟩
  | a :: t, hd, idx, buf, m, r => by
      obtain ⟨hnb, hnp⟩ := hd a (by simp)
      have ht : ∀ b ∈ t, b64Classify b ≠ B64Step.bad ∧ b64Classify b ≠ B64Step.pad :=
        fun b hb => hd b (by simp [hb])
      have hlen : ∀ buf2 m2 r2 (rest : List Nat),
          fb64Loop rest (idx + 1 + t.length) buf2 m2 r2
          = fb64Loop rest (idx + (a :: t).length) buf2 m2 r2 := by
        intro buf2 m2 r2 rest
        have : idx + 1 + t.length = idx + (a :: t).length := by
          simp only [List.length_cons]
          omega
        rw [this]
      rcases hca : b64Classify a with v | _ | _ | _
      · by_cases hm4 : m + 1 = 4
        · obtain ⟨buf2, m2, r2, hrec⟩ := fb64Loop_advance t ht (idx + 1)
            (((buf ||| v) <<< 6) % 2 ^ 32) 0
            (r ++ [(((buf ||| v) <<< 6) % 2 ^ 32) >>> 22 % 256,
                   (((buf ||| v) <<< 6) % 2 ^ 32) >>> 14 % 256,
                   (((buf ||| v) <<< 6) % 2 ^ 32) >>> 6 % 256])
          refine ⟨buf2, m2, r2, fun rest => ?_⟩
          rw [List.cons_append]
          simp only [fb64Loop, hca]
          rw [if_pos hm4, hrec rest, hlen]
        · obtain ⟨buf2, m2, r2, hrec⟩ := fb64Loop_advance t ht (idx + 1)
            (((buf ||| v) <<< 6) % 2 ^ 32) (m + 1) r
          refine ⟨buf2, m2, r2, fun rest => ?_⟩
          rw [List.cons_append]
          simp only [fb64Loop, hca]
          rw [if_neg hm4, hrec rest, hlen]
      · obtain ⟨buf2, m2, r2, hrec⟩ := fb64Loop_advance t ht (idx + 1) buf m r
        refine ⟨buf2, m2, r2, fun rest => ?_⟩
        rw [List.cons_append, fb64Loop, hca, hrec rest, hlen]
      · exact absurd hca hnp
      · exact absurd hca hnb

theorem fb64Rest_bad {t : List Nat} (ht : ∀ b ∈ t, b = 61 ∨ b = 13 ∨ b = 10)
    {x : Nat} (hx : ¬(x = 61 ∨ x = 13 ∨ x = 10)) :
    ∀ idx buf m r rest, fb64Rest (t ++ x :: rest) idx buf m r
      = .error (.InvalidBase64Byte x (idx + t.length)) := by
  induction t with
  | nil =>
      intro idx buf m r rest
      rw [List.nil_append, fb64Rest, if_neg hx]
      simp
  | cons a u ih =>
      intro idx buf m r rest
      have ha := ht a (by simp)
      have hu : ∀ b ∈ u, b = 61 ∨ b = 13 ∨ b = 10 := fun b hb => ht b (by simp [hb])
      rw [List.cons_append, fb64Rest, if_pos ha, ih hu]
      have : idx + 1 + u.length = idx + (a :: u).length := by
        simp only [List.length_cons]
        omega
      rw [this]

theorem dataCount_nil : dataCount [] = 0 := rfl

theorem dataCount_cons_data {a : Nat} {v : Nat} (h : b64Classify a = B64Step.data v)
    (t : List Nat) : dataCount (a :: t) = dataCount t + 1 := by
  simp [dataCount, List.filter_cons, h]

theorem dataCount_cons_ws {a : Nat} (h : b64Classify a = B64Step.ws)
    (t : List Nat) : dataCount (a :: t) = dataCount t := by
  simp [dataCount, List.filter_cons, h]

theorem fb64Loop_count : ∀ (d : List Nat),
    (∀ b ∈ d, (∃ v, b64Classify b = B64Step.data v) ∨ b64Classify b = B64Step.ws) →
    ∀ idx buf m r, m < 4 →
    ∃ idx2 buf2 r2, r2.length = r.length + 3 * ((m + dataCount d) / 4) ∧
      ∀ rest, fb64Loop (d ++ rest) idx buf m r
        = fb64Loop rest idx2 buf2 ((m + dataCount d) % 4) r2
  | [], _, idx, buf, m, r, hm =>
      ⟨idx, buf, r, by simp [dataCount_nil]; omega, fun rest => by
        simp [dataCount_nil, Nat.mod_eq_of_lt hm]⟩
  | a :: t, hd, idx, buf, m, r, hm => by
      have ht : ∀ b ∈ t, (∃ v, b64Classify b = B64Step.data v) ∨ b64Classify b = B64Step.ws :=
        fun b hb => hd b (by simp [hb])
      rcases hd a (by simp) with ⟨v, hca⟩ | hca
      · rw [dataCount_cons_data hca]
        by_cases hm4 : m + 1 = 4
        · obtain ⟨idx2, buf2, r2, hlen, hrec⟩ := fb64Loop_count t ht (idx + 1)
            ((buf ||| v) <<< 6 % 2 ^ 32) 0
            (r ++ [((buf ||| v) <<< 6 % 2 ^ 32) >>> 22 % 256,
                   ((buf ||| v) <<< 6 % 2 ^ 32) >>> 14 % 256,
                   ((buf ||| v) <<< 6 % 2 ^ 32) >>> 6 % 256]) (by omega)
        
          refine ⟨idx2, buf2, r2, ?_, fun rest => ?_⟩
          · rw [hlen]
            simp only [List.length_append, List.length_cons, List.length_nil]
            omega
          · rw [List.cons_append]
            simp only [fb64Loop, hca]
            rw [if_pos hm4, hrec rest]
            have : (0 + dataCount t) % 4 = (m + (dataCount t + 1)) % 4 := by omega
            rw [this]
        · obtain ⟨idx2, buf2, r2, hlen, hrec⟩ := fb64Loop_count t ht (idx + 1)
            ((buf ||| v) <<< 6 % 2 ^ 32) (m + 1) r (by omega)
          refine ⟨idx2, buf2, r2, ?_, fun rest => ?_⟩
          · rw [hlen]
            omega
          · rw [List.cons_append]
            simp only [fb64Loop, hca]
            rw [if_neg hm4, hrec rest]
            have : (m + 1 + dataCount t) % 4 = (m + (dataCount t + 1)) % 4 := by omega
            rw [this]
      · rw [dataCount_cons_ws hca]
        obtain ⟨idx2, buf2, r2, hlen, hrec⟩ := fb64Loop_count t ht (idx + 1) buf m r hm
        exact ⟨idx2, buf2, r2, hlen, fun rest => by
          rw [List.cons_append, fb64Loop, hca, hrec rest]⟩

theorem dataCount_eq_length {d : List Nat}
    (hd : ∀ b ∈ d, ∃ v, b64Classify b = B64Step.data v) : dataCount d = d.length := by
  unfold dataCount
  rw [List.filter_eq_self.mpr]
  intro a ha
  obtain ⟨v, hv⟩ := hd a ha
  simp [hv]

theorem decode_wellformed (d t : List Nat)
    (hd : ∀ b ∈ d, (∃ v, b64Classify b = B64Step.data v) ∨ b64Classify b = B64Step.ws)
    (ht : ∀ b ∈ t, b = 61 ∨ b = 13 ∨ b = 10) :
    (dataCount d % 4 = 1 → from_base64 (d ++ t) = .error .InvalidBase64Length) ∧
    (dataCount d % 4 ≠ 1 → ∃ r, from_base64 (d ++ t) = .ok r ∧
      r.length = 3 * (dataCount d / 4)
        + (if dataCount d % 4 = 2 then 1 else if dataCount d % 4 = 3 then 2 else 0)) := by
  obtain ⟨idx2, buf2, r2, hlen, hrec⟩ := fb64Loop_count d hd 0 0 0 [] (by omega)
  simp only [Nat.zero_add, List.length_nil] at hlen hrec
  have hkey : from_base64 (d ++ t) = fb64Finish buf2 (dataCount d % 4) r2 := by
    unfold from_base64
    rw [hrec t]
    exact fb64Loop_trailing ht _ _ _ _
  constructor
  · intro h1
    rw [hkey, h1]
    rfl
  · intro h1
    rcases (by omega : dataCount d % 4 = 0 ∨ dataCount d % 4 = 2 ∨ dataCount d % 4 = 3)
      with h | h | h <;> rw [hkey, h]
    · exact ⟨r2, rfl, by rw [hlen]; simp⟩
    · refine ⟨r2 ++ [(buf2 >>> 10) % 256], rfl, ?_⟩
      simp only [List.length_append, List.length_cons, List.length_nil]
      rw [hlen]
      simp
    · refine ⟨r2 ++ [(buf2 >>> 16) % 256, (buf2 >>> 8) % 256], rfl, ?_⟩
      simp only [List.length_append, List.length_cons, List.length_nil]
      rw [hlen]
      simp

end Base64

namespace Base64

/-! ### The claims -/

/-- Claim C1, counterexample: at the concrete input `v = []` with the `MIME`
configuration (wrap length 76), the round trip does not return `Ok([])`:
the encoder's preallocation underflows `prealloc_len - 1` and the call
aborts, so no string is produced at all. -/
theorem c1_round_trip_counterexample :
    (to_base64 [] MIME).map from_base64 ≠ some (Except.ok []) := by
  decide

/-- Claim C1 (amended): for every byte sequence `v` and configuration whose
wrap length, if any, is at least 1, and excluding the aborting case of an
empty input with wrapping enabled, decoding the encoding of `v` yields
exactly `Ok v`. -/
theorem c1_round_trip (v : List Nat) (cfg : Config)
    (hv : ∀ b ∈ v, b < 256)
    (hcfg : cfg.line_length = none ∨ ∃ L, cfg.line_length = some L ∧ 1 ≤ L ∧ v ≠ []) :
    ∃ s, to_base64 v cfg = some s ∧ from_base64 s = Except.ok v :=
  encode_decode v cfg hv hcfg

/-- Witness for C1 at `v = "foobar"` under the `MIME` configuration. -/
theorem c1_round_trip_witness :
    ∃ s, to_base64 [102, 111, 111, 98, 97, 114] MIME = some s
      ∧ from_base64 s = Except.ok [102, 111, 111, 98, 97, 114] :=
  c1_round_trip [102, 111, 111, 98, 97, 114] MIME (by decide)
    (Or.inr ⟨76, rfl, by omega, by decide⟩)

/-- Claim C2, counterexample: the encoder is not total: on the empty byte
sequence with wrap length 1 (a valid configuration by the claim's own
terms) the preallocation arithmetic underflows and the call aborts. -/
theorem c2_encoder_total_counterexample :
    to_base64 [] ⟨CharacterSet.Standard, Newline.CRLF, true, some 1⟩ = none := rfl

/-- Claim C2 (amended): the encoder returns a string for every input and
every configuration with wrap length at least 1, except on the empty
input with line wrapping enabled. -/
theorem c2_encoder_total (v : List Nat) (cfg : Config)
    (hcfg : cfg.line_length = none ∨ ∃ L, cfg.line_length = some L ∧ 1 ≤ L ∧ v ≠ []) :
    ∃ s, to_base64 v cfg = some s :=
  to_base64_total v cfg hcfg

/-- Witness for C2 at a one-byte input with wrap length 1. -/
theorem c2_encoder_total_witness :
    ∃ s, to_base64 [7] ⟨CharacterSet.Standard, Newline.CRLF, true, some 1⟩ = some s :=
  c2_encoder_total [7] ⟨CharacterSet.Standard, Newline.CRLF, true, some 1⟩
    (Or.inr ⟨1, rfl, by omega, by decide⟩)

/-- Claim C3, counterexample: encoding the empty sequence does not yield
the empty string for every configuration: with line wrapping enabled the
encoder aborts instead. -/
theorem c3_empty_counterexample :
    to_base64 [] ⟨CharacterSet.Standard, Newline.CRLF, true, some 4⟩ ≠ some [] := by
  decide

/-- Claim C3 (amended): encoding the empty sequence yields the empty string
for every configuration without line wrapping, and decoding the empty
input yields the empty byte sequence. -/
theorem c3_empty :
    (∀ cfg : Config, cfg.line_length = none → to_base64 [] cfg = some []) ∧
    from_base64 [] = Except.ok [] := by
  constructor
  · intro cfg h
    obtain ⟨cs, nl, pd, ll⟩ := cfg
    simp only at h
    subst h
    cases cs <;> cases nl <;> cases pd <;> rfl
  · rfl

/-- Witness for C3 at the `STANDARD` configuration. -/
theorem c3_empty_witness : to_base64 [] STANDARD = some [] :=
  c3_empty.1 STANDARD rfl

/-- Claim C4, counterexample: for the 6-byte input `"foobar"` (a multiple
of 3) and the padded configuration with wrap length 1, the preallocation
overestimates the number of line breaks and the unused buffer bytes remain
`=` characters in the output. -/
theorem c4_no_pad_chars_counterexample :
    to_base64 [102, 111, 111, 98, 97, 114]
        ⟨CharacterSet.Standard, Newline.CRLF, true, some 1⟩
      = some [90, 109, 57, 118, 13, 10, 89, 109, 70, 121,
              61, 61, 61, 61, 61, 61, 61, 61, 61, 61, 61, 61] ∧
    61 ∈ [90, 109, 57, 118, 13, 10, 89, 109, 70, 121,
          61, 61, 61, 61, 61, 61, 61, 61, 61, 61, 61, 61] := by
  decide

/-- Claim C4 (amended): for every input whose length is a multiple of 3,
the output contains no `=` character provided line wrapping is disabled,
or padding is disabled (with a wrap length of at least 1). -/
theorem c4_no_pad_chars (v : List Nat) (cfg : Config) (h3 : v.length % 3 = 0)
    (hcfg : cfg.line_length = none
      ∨ (cfg.pad = false ∧ ∃ L, cfg.line_length = some L ∧ 1 ≤ L ∧ v ≠ [])) :
    ∃ s, to_base64 v cfg = some s ∧ 61 ∉ s := by
  rcases hcfg with hll | ⟨hpad, L, hll, hL, hne⟩
  · obtain ⟨w, k, heq, hw, hk⟩ := to_base64_spec_none v hll
    have hw61 : ∀ x ∈ w, x ≠ 61 := by
      intro x hx
      rw [hw] at hx
      rcases List.mem_append.mp hx with hx | hx
      · rcases encGroups_mem _ _ _ _ _ x hx with ⟨u, hu64, hxe⟩ | hx2
        · rw [hxe]
          exact table_ne_61 cfg.char_set u hu64
        · exact newlineBytes_ne_61 cfg.newline x hx2
      · obtain ⟨u, hu64, hxe⟩ := encTail_mem _ v _ _ x hx
        rw [hxe]
        exact table_ne_61 cfg.char_set u hu64
    cases hpad : cfg.pad with
    | true =>
        have hk0 : k = 0 := by
          rw [hk, hw]
          simp only [List.length_append]
          have htail : (encTail (charsetTable cfg.char_set) v v.length (v.length % 3)).length
              = 0 := by
            rw [h3]
            simp [encTail]
          have hg := encGroups_none_len (charsetTable cfg.char_set) (newlineBytes cfg.newline)
            (v.take (v.length - v.length % 3)) 0
          have htk : (v.take (v.length - v.length % 3)).length = v.length - v.length % 3 := by
            rw [List.length_take]
            omega
          rw [htk] at hg
          rw [htail, hg]
          omega
        rw [hpad] at heq
        simp only [if_true] at heq
        rw [hk0] at heq
        simp only [List.replicate_zero, List.append_nil] at heq
        exact ⟨w, heq, fun hx => hw61 61 hx rfl⟩
    | false =>
        rw [hpad] at heq
        simp only [Bool.false_eq_true, if_false] at heq
        rw [stripTrailingEq_append_replicate hw61] at heq
        exact ⟨w, heq, fun hx => hw61 61 hx rfl⟩
  · obtain ⟨w, k, heq, hw⟩ := to_base64_spec_some v hll hL hne
    have hw61 : ∀ x ∈ w, x ≠ 61 := by
      intro x hx
      rw [hw] at hx
      rcases List.mem_append.mp hx with hx | hx
      · rcases List.mem_append.mp hx with hx | hx
        · rcases encGroups_mem _ _ _ _ _ x hx with ⟨u, hu64, hxe⟩ | hx2
          · rw [hxe]
            exact table_ne_61 cfg.char_set u hu64
          · exact newlineBytes_ne_61 cfg.newline x hx2
        · split at hx
          · split at hx
            · exact newlineBytes_ne_61 cfg.newline x hx
            · simp at hx
          · simp at hx
      · obtain ⟨u, hu64, hxe⟩ := encTail_mem _ v _ _ x hx
        rw [hxe]
        exact table_ne_61 cfg.char_set u hu64
    rw [hpad] at heq
    simp only [Bool.false_eq_true, if_false] at heq
    rw [stripTrailingEq_append_replicate hw61] at heq
    exact ⟨w, heq, fun hx => hw61 61 hx rfl⟩

/-- Witness for C4 at `"foo"` with the unpadded URL-safe configuration and
at `"foobar"` with padding but no wrapping. -/
theorem c4_no_pad_chars_witness :
    (∃ s, to_base64 [102, 111, 111] URL_SAFE = some s ∧ 61 ∉ s) ∧
    (∃ s, to_base64 [102, 111, 111, 98, 97, 114] STANDARD = some s ∧ 61 ∉ s) :=
  ⟨c4_no_pad_chars [102, 111, 111] URL_SAFE (by decide) (Or.inl rfl),
   c4_no_pad_chars [102, 111, 111, 98, 97, 114] STANDARD (by decide) (Or.inl rfl)⟩

end Base64

namespace Base64

/-- Claim C5: the known vectors: `"f"`, `"fo"`, `"foo"`, `"foobar"` under
`STANDARD`, and `[251, 255]` under `URL_SAFE` and `STANDARD`. -/
theorem c5_known_vectors :
    to_base64 [102] STANDARD = some [90, 103, 61, 61] ∧
    to_base64 [102, 111] STANDARD = some [90, 109, 56, 61] ∧
    to_base64 [102, 111, 111] STANDARD = some [90, 109, 57, 118] ∧
    to_base64 [102, 111, 111, 98, 97, 114] STANDARD
      = some [90, 109, 57, 118, 89, 109, 70, 121] ∧
    to_base64 [251, 255] URL_SAFE = some [45, 95, 56] ∧
    to_base64 [251, 255] STANDARD = some [43, 47, 56, 61] := by
  decide

/-- Claim C6: with wrap length 4, `"foobar"` encodes to `"Zm9v"`, the
configured newline, then `"YmFy"`, under both CRLF and LF. -/
theorem c6_line_wrap :
    to_base64 [102, 111, 111, 98, 97, 114]
        ⟨CharacterSet.Standard, Newline.CRLF, true, some 4⟩
      = some [90, 109, 57, 118, 13, 10, 89, 109, 70, 121] ∧
    to_base64 [102, 111, 111, 98, 97, 114]
        ⟨CharacterSet.Standard, Newline.LF, true, some 4⟩
      = some [90, 109, 57, 118, 10, 89, 109, 70, 121] := by
  decide

/-- Claim C7: the decoder's fixed per-character rules: `A`-`Z` map to
byte − 0x41, `a`-`z` to byte − 0x47, `0`-`9` to byte + 0x04, `+` and `-`
both to 62, `/` and `_` both to 63, independently of alphabet; and
`from_base64 "-_8" = from_base64 "+/8="`. -/
theorem c7_decoder_mapping :
    (∀ b : Nat, 65 ≤ b → b ≤ 90 → b64Classify b = B64Step.data (b - 65)) ∧
    (∀ b : Nat, 97 ≤ b → b ≤ 122 → b64Classify b = B64Step.data (b - 71)) ∧
    (∀ b : Nat, 48 ≤ b → b ≤ 57 → b64Classify b = B64Step.data (b + 4)) ∧
    b64Classify 43 = B64Step.data 62 ∧ b64Classify 45 = B64Step.data 62 ∧
    b64Classify 47 = B64Step.data 63 ∧ b64Classify 95 = B64Step.data 63 ∧
    from_base64 [45, 95, 56] = from_base64 [43, 47, 56, 61] := by
  refine ⟨?_, ?_, ?_, by decide, by decide, by decide, by decide, by decide⟩
  · intro b h1 h2
    unfold b64Classify
    rw [if_pos ⟨h1, h2⟩]
  · intro b h1 h2
    unfold b64Classify
    rw [if_neg (by omega), if_pos ⟨h1, h2⟩]
  · intro b h1 h2
    unfold b64Classify
    rw [if_neg (by omega), if_neg (by omega), if_pos ⟨h1, h2⟩]

/-- Witness for C7 on one character of each range. -/
theorem c7_decoder_mapping_witness :
    b64Classify 66 = B64Step.data 1 ∧ b64Classify 122 = B64Step.data 51 ∧
    b64Classify 55 = B64Step.data 59 :=
  ⟨c7_decoder_mapping.1 66 (by omega) (by omega),
   c7_decoder_mapping.2.1 122 (by omega) (by omega),
   c7_decoder_mapping.2.2.1 55 (by omega) (by omega)⟩

/-- Claim C8: a byte outside the base64 set fails fast with the
invalid-byte error carrying that byte and its absolute index; after a `=`,
any byte other than `=`, CR, LF likewise fails at its absolute index. -/
theorem c8_invalid_byte :
    (∀ (d : List Nat) (x : Nat) (rest : List Nat),
        (∀ b ∈ d, b64Classify b ≠ B64Step.bad ∧ b64Classify b ≠ B64Step.pad) →
        b64Classify x = B64Step.bad →
        from_base64 (d ++ x :: rest)
          = Except.error (FromBase64Error.InvalidBase64Byte x d.length)) ∧
    (∀ (d t : List Nat) (x : Nat) (rest : List Nat),
        (∀ b ∈ d, b64Classify b ≠ B64Step.bad ∧ b64Classify b ≠ B64Step.pad) →
        (∀ b ∈ t, b = 61 ∨ b = 13 ∨ b = 10) →
        ¬(x = 61 ∨ x = 13 ∨ x = 10) →
        from_base64 (d ++ 61 :: (t ++ x :: rest))
          = Except.error (FromBase64Error.InvalidBase64Byte x (d.length + 1 + t.length))) := by
  constructor
  · intro d x rest hd hx
    obtain ⟨buf2, m2, r2, hrec⟩ := fb64Loop_advance d hd 0 0 0 []
    unfold from_base64
    rw [hrec (x :: rest), fb64Loop, hx]
    simp
  · intro d t x rest hd ht hx
    obtain ⟨buf2, m2, r2, hrec⟩ := fb64Loop_advance d hd 0 0 0 []
    unfold from_base64
    rw [hrec (61 :: (t ++ x :: rest)), fb64Loop]
    have h61 : b64Classify 61 = B64Step.pad := by decide
    rw [h61, fb64Rest_bad ht hx]
    simp

/-- Witness for C8 on `"Zm$="` (invalid `$` before any padding) and
`"Zg==$"` (invalid `$` after padding). -/
theorem c8_invalid_byte_witness :
    from_base64 [90, 109, 36, 61]
      = Except.error (FromBase64Error.InvalidBase64Byte 36 2) ∧
    from_base64 [90, 103, 61, 61, 36]
      = Except.error (FromBase64Error.InvalidBase64Byte 36 4) := by
  constructor
  · have := c8_invalid_byte.1 [90, 109] 36 [61] (by decide) (by decide)
    simpa using this
  · have := c8_invalid_byte.2 [90, 103] [61] 36 [] (by decide) (by decide) (by decide)
    simpa using this

/-- Claim C9, counterexample: the input `"A$"` has exactly one valid data
character (count congruent to 1 mod 4), yet decoding fails with the
invalid-byte error for `$`, not with the invalid-length error. -/
theorem c9_invalid_length_counterexample :
    dataCount [65, 36] % 4 = 1 ∧
    from_base64 [65, 36] = Except.error (FromBase64Error.InvalidBase64Byte 36 1) ∧
    from_base64 [65, 36] ≠ Except.error FromBase64Error.InvalidBase64Length := by
  decide

/-- Claim C9 (amended): for inputs that raise no invalid-byte error (data
and CR/LF characters followed by a tail of `=`/CR/LF bytes), a data-character
count congruent to 1 mod 4 fails with invalid-length, while counts congruent
to 0, 2, 3 succeed and emit 0, 1, 2 trailing bytes beyond the full groups;
in particular `"Z==="` fails with invalid-length. -/
theorem c9_invalid_length :
    (∀ d t : List Nat,
      (∀ b ∈ d, (∃ v, b64Classify b = B64Step.data v) ∨ b64Classify b = B64Step.ws) →
      (∀ b ∈ t, b = 61 ∨ b = 13 ∨ b = 10) →
      (dataCount d % 4 = 1 →
        from_base64 (d ++ t) = Except.error FromBase64Error.InvalidBase64Length) ∧
      (dataCount d % 4 ≠ 1 → ∃ r, from_base64 (d ++ t) = Except.ok r ∧
        r.length = 3 * (dataCount d / 4)
          + (if dataCount d % 4 = 2 then 1 else if dataCount d % 4 = 3 then 2 else 0))) ∧
    from_base64 [90, 61, 61, 61] = Except.error FromBase64Error.InvalidBase64Length := by
  constructor
  · intro d t hd ht
    exact decode_wellformed d t hd ht
  · decide

/-- Witness for C9 on `"Z"` followed by `"==="`. -/
theorem c9_invalid_length_witness :
    from_base64 ([90] ++ [61, 61, 61]) = Except.error FromBase64Error.InvalidBase64Length :=
  (c9_invalid_length.1 [90] [61, 61, 61]
    (by intro b hb; simp at hb; subst hb; exact Or.inl ⟨25, by decide⟩)
    (by decide)).1 (by decide)

/-- Claim C10: the decoder never validates the number of `=` characters:
data characters followed by any number of `=`/CR/LF bytes decode
successfully whenever the data count is congruent to 0, 2 or 3 mod 4; in
particular `"="` decodes to `[]` and `"Zg======"` to `"f"`. -/
theorem c10_padding_not_validated :
    (∀ d t : List Nat,
        (∀ b ∈ d, ∃ v, b64Classify b = B64Step.data v) →
        (∀ b ∈ t, b = 61 ∨ b = 13 ∨ b = 10) →
        d.length % 4 ≠ 1 → ∃ r, from_base64 (d ++ t) = Except.ok r) ∧
    from_base64 [61] = Except.ok [] ∧
    from_base64 [90, 103, 61, 61, 61, 61, 61, 61] = Except.ok [102] := by
  refine ⟨?_, by decide, by decide⟩
  intro d t hd ht h1
  have hd' : ∀ b ∈ d, (∃ v, b64Classify b = B64Step.data v) ∨ b64Classify b = B64Step.ws :=
    fun b hb => Or.inl (hd b hb)
  have hcount := dataCount_eq_length hd
  obtain ⟨-, hsucc⟩ := decode_wellformed d t hd' ht
  rw [hcount] at hsucc
  obtain ⟨r, hr, -⟩ := hsucc h1
  exact ⟨r, hr⟩

/-- Witness for C10 on `"Zm8"` followed by one `=`. -/
theorem c10_padding_not_validated_witness :
    ∃ r, from_base64 ([90, 109, 56] ++ [61]) = Except.ok r :=
  c10_padding_not_validated.1 [90, 109, 56] [61]
    (by
      intro b hb
      simp at hb
      rcases hb with h | h | h <;> subst h
      · exact ⟨25, by decide⟩
      · exact ⟨38, by decide⟩
      · exact ⟨60, by decide⟩)
    (by decide) (by decide)

end Base64
